import Mathlib

/-!
Verification development for the Alchemy repository's two self-contained cores:
the `SemanticChunker` (src/alchemy/utils/chunker.py) and the `JobQueue`
scheduler (src/alchemy/queue/worker.py).  Text is modelled as `List Char`
(a Python `str` is a sequence of characters); whitespace is the ASCII
whitespace set (the model does not cover non-ASCII Unicode whitespace,
which no claim exercises).  Python `int` sizes are modelled as `Nat`
(all sizes and counts in the source are non-negative).
-/

namespace Alchemy

/-! ## SemanticChunker (src/alchemy/utils/chunker.py) -/

/-- ASCII whitespace, the characters matched by Python's `\s` and stripped by
`str.strip()` on ASCII text: space, tab, newline, carriage return, vertical
tab (U+000B) and form feed (U+000C). -/
def isWs (c : Char) : Bool :=
  c == ' ' || c == '\t' || c == '\n' || c == '\r' ||
    c == Char.ofNat 11 || c == Char.ofNat 12

/-- Python `str.strip()`: drop whitespace from both ends. -/
def stripChars (l : List Char) : List Char :=
  ((l.dropWhile isWs).reverse.dropWhile isWs).reverse

/-- `SemanticChunker._estimate_tokens`: `max(1, len(text) // 4)`. -/
def estimate_tokens (s : List Char) : Nat :=
  max 1 (s.length / 4)

/-- Worker for `re.split(r"\n\n+", text)`: `cur` is the current piece
(reversed), `nl` counts the pending run of newlines not yet classified.
A run of two or more newlines is a separator; a single newline belongs to
the current piece.  Trailing behaviour matches `re.split`: a separator at
the very end yields a final empty piece. -/
def splitParasAux : List Char → List Char → Nat → List (List Char)
  | [], cur, nl =>
    if 2 ≤ nl then [cur.reverse, []]
    else [(List.replicate nl '\n' ++ cur).reverse]
  | c :: rest, cur, nl =>
    if c == '\n' then splitParasAux rest cur (nl + 1)
    else if 2 ≤ nl then cur.reverse :: splitParasAux rest [c] 0
    else splitParasAux rest (c :: (List.replicate nl '\n' ++ cur)) 0

/-- The paragraph list of `_sliding_window`:
`[p.strip() for p in re.split(r"\n\n+", text) if p.strip()]`. -/
def paragraphsOf (text : List Char) : List (List Char) :=
  ((splitParasAux text [] 0).map stripChars).filter (fun p => !p.isEmpty)

/-- Python `sep.join(pieces)`. -/
def joinSep (sep : List Char) : List (List Char) → List Char
  | [] => []
  | [x] => x
  | x :: y :: rest => x ++ sep ++ joinSep sep (y :: rest)

/-- The separator `"\n\n"` used by `_sliding_window` to join a window. -/
def nlnl : List Char := ['\n', '\n']

/-- One attempt of the heading pattern `(#{1,3})\s+(.+)$` at a line-start
position, given the rest of the text `s` from that position.  Returns
`(matchLength, group2)` on success.  Faithful to Python `re` semantics:

* `#{1,3}` is greedy; a run of four or more `#` can never be followed by a
  whitespace character after backtracking, so it fails outright;
* `\s+` greedily takes the maximal whitespace run (which may cross
  newlines, since `\s` matches `\n` and `MULTILINE` does not change that);
* `.+$` then needs at least one non-newline character up to the end of the
  line; if the whitespace run extends to the end of the text, the engine
  backtracks `\s+` to the last non-newline whitespace character, which then
  becomes the single character of group 2. -/
def matchHeading (s : List Char) : Option (Nat × List Char) :=
  let r := (s.takeWhile (fun c => c == '#')).length
  if r = 0 ∨ 3 < r then none
  else
    let s1 := s.drop r
    let w := (s1.takeWhile isWs).length
    if w = 0 then none
    else
      match s1.drop w with
      | c :: rest2 =>
        let g := (c :: rest2).takeWhile (fun ch => ch != '\n')
        some (r + w + g.length, g)
      | [] =>
        match ((s1.takeWhile isWs).drop 1).reverse.dropWhile (fun ch => ch == '\n') with
        | [] => none
        | c :: restRev => some (r + 1 + restRev.length + 1, [c])

/-- Scanner for `heading_pattern.finditer(text)` with the `MULTILINE` `^`
anchor: attempt a match at every line start, and resume after the end of a
successful match (whose last character is never a newline, so the resume
position is not a line start).  Each step consumes at least one character,
so `fuel = text.length` never runs out before the text does. -/
def scanFuel : Nat → Nat → List Char → Bool → List (Nat × Nat × List Char)
  | 0, _, _, _ => []
  | fuel + 1, pos, s, atStart =>
    match s with
    | [] => []
    | c :: rest =>
      if atStart then
        match matchHeading (c :: rest) with
        | some (len, g) =>
          (pos, pos + len, g) :: scanFuel fuel (pos + len) ((c :: rest).drop len) false
        | none => scanFuel fuel (pos + 1) rest (c == '\n')
      else
        scanFuel fuel (pos + 1) rest (c == '\n')

/-- `list(heading_pattern.finditer(text))` as `(start, end, group2)` triples. -/
def findHeadings (text : List Char) : List (Nat × Nat × List Char) :=
  scanFuel text.length 0 text true

/-- The per-match loop of `_split_by_headings`: for each match, the section
body runs from the match's end to the next match's start (or the end of the
text); the body is stripped and dropped when empty; the heading label is the
stripped group 2. -/
def sectionsFrom (text : List Char) :
    List (Nat × Nat × List Char) → List (Option (List Char) × List Char)
  | [] => []
  | m :: rest =>
    let endPos := match rest with | [] => text.length | m2 :: _ => m2.1
    let body := stripChars ((text.take endPos).drop m.2.1)
    let heading := stripChars m.2.2
    (if body = [] then [] else [(some heading, body)]) ++ sectionsFrom text rest

/-- `SemanticChunker._split_by_headings`. -/
def split_by_headings (text : List Char) : List (Option (List Char) × List Char) :=
  match findHeadings text with
  | [] => [(none, text)]
  | m :: ms =>
    let preamble := stripChars (text.take m.1)
    (if preamble = [] then [] else [(none, preamble)]) ++ sectionsFrom text (m :: ms)

/-- The overlap computation of `_sliding_window`: walk the just-flushed
window's paragraphs backwards (`for p in reversed(current_paras)`),
prepending each (`insert(0, p)`) while the running estimate stays within
`chunk_overlap`.  The list argument is the reversed window. -/
def overlapAccum (chunk_overlap : Nat) :
    List (List Char) → Nat → List (List Char) → List (List Char) × Nat
  | [], overlap_tokens, acc => (acc, overlap_tokens)
  | p :: rest, overlap_tokens, acc =>
    let t := estimate_tokens p
    if chunk_overlap < overlap_tokens + t then (acc, overlap_tokens)
    else overlapAccum chunk_overlap rest (overlap_tokens + t) (p :: acc)

/-- Overlap paragraphs and their cumulative estimate for a flushed window. -/
def overlapOf (chunk_overlap : Nat) (paras : List (List Char)) :
    List (List Char) × Nat :=
  overlapAccum chunk_overlap paras.reverse 0 []

/-- Loop state of `_sliding_window`. -/
structure SWState where
  windows : List (List Char)
  current_paras : List (List Char)
  current_tokens : Nat
deriving DecidableEq, Repr

/-- One iteration of the paragraph loop in `_sliding_window`: if adding the
paragraph would overflow `chunk_size` and the window is non-empty, flush the
joined window and seed the next one with the overlap paragraphs; then append
the paragraph. -/
def swStep (chunk_size chunk_overlap : Nat) (st : SWState) (para : List Char) :
    SWState :=
  let para_tokens := estimate_tokens para
  if chunk_size < st.current_tokens + para_tokens ∧ st.current_paras ≠ [] then
    let ov := overlapOf chunk_overlap st.current_paras
    { windows := st.windows ++ [joinSep nlnl st.current_paras]
      current_paras := ov.1 ++ [para]
      current_tokens := ov.2 + para_tokens }
  else
    { st with
      current_paras := st.current_paras ++ [para]
      current_tokens := st.current_tokens + para_tokens }

/-- `SemanticChunker._sliding_window`. -/
def sliding_window (chunk_size chunk_overlap : Nat) (text : List Char) :
    List (List Char) :=
  let st := (paragraphsOf text).foldl (swStep chunk_size chunk_overlap)
    ⟨[], [], 0⟩
  st.windows ++ (if st.current_paras = [] then [] else [joinSep nlnl st.current_paras])

/-- Paragraph-level ghost of `SWState`: the same loop but recording each
window as its list of paragraphs instead of the joined string. -/
structure SWParas where
  windows : List (List (List Char))
  current_paras : List (List Char)
  current_tokens : Nat

/-- Paragraph-level ghost of `swStep`. -/
def swStepP (chunk_size chunk_overlap : Nat) (st : SWParas) (para : List Char) :
    SWParas :=
  let para_tokens := estimate_tokens para
  if chunk_size < st.current_tokens + para_tokens ∧ st.current_paras ≠ [] then
    let ov := overlapOf chunk_overlap st.current_paras
    { windows := st.windows ++ [st.current_paras]
      current_paras := ov.1 ++ [para]
      current_tokens := ov.2 + para_tokens }
  else
    { st with
      current_paras := st.current_paras ++ [para]
      current_tokens := st.current_tokens + para_tokens }

/-- The windows of `_sliding_window` as paragraph lists (each joined window
of `sliding_window` is the `"\n\n"`-join of the corresponding entry). -/
def slidingWindowParas (chunk_size chunk_overlap : Nat) (text : List Char) :
    List (List (List Char)) :=
  let st := (paragraphsOf text).foldl (swStepP chunk_size chunk_overlap)
    ⟨[], [], 0⟩
  st.windows ++ (if st.current_paras = [] then [] else [st.current_paras])

/-- A paragraph is held by the sliding-window loop state: either still in
the current window or inside an already flushed window. -/
def swInWin (st : SWParas) (p : List Char) : Prop :=
  p ∈ st.current_paras ∨ ∃ w ∈ st.windows, p ∈ w

/-- Well-formedness of the sliding-window loop state over a paragraph pool:
flushed windows are non-empty and all held paragraphs come from the pool. -/
def swGood (paras0 : List (List Char)) (st : SWParas) : Prop :=
  (∀ w ∈ st.windows, w ≠ [] ∧ ∀ q ∈ w, q ∈ paras0) ∧
    ∀ q ∈ st.current_paras, q ∈ paras0

/-- `DocumentChunk` (src/alchemy/schemas.py); the Python field `section` is
named `sec` here because `section` is a Lean keyword. -/
structure DocumentChunk where
  index : Nat
  text : List Char
  page : Option Nat := none
  sec : Option (List Char) := none
  tokens : Option Nat := none
deriving DecidableEq, Repr

/-- The inner loop of `chunk` over the sub-chunks of an oversized section:
append a chunk with the running index, the stripped sub-chunk text, the
section's heading label and the sub-chunk's own estimate. -/
def subStep (title : Option (List Char)) (st : List DocumentChunk × Nat)
    (sub : List Char) : List DocumentChunk × Nat :=
  (st.1 ++ [{ index := st.2, text := stripChars sub, sec := title,
              tokens := some (estimate_tokens sub) }],
   st.2 + 1)

/-- The per-section body of the loop in `chunk`: a section whose estimate is
within `chunk_size` becomes one chunk; otherwise each sliding window becomes
a chunk. -/
def sectionStep (chunk_size chunk_overlap : Nat) (st : List DocumentChunk × Nat)
    (s : Option (List Char) × List Char) : List DocumentChunk × Nat :=
  let token_count := estimate_tokens s.2
  if token_count ≤ chunk_size then
    (st.1 ++ [{ index := st.2, text := stripChars s.2, sec := s.1,
                tokens := some token_count }],
     st.2 + 1)
  else
    (sliding_window chunk_size chunk_overlap s.2).foldl (subStep s.1) st

/-- `SemanticChunker.chunk`.  The guard `if not text or not text.strip()`
is equivalent to `text.strip() == ""` since the empty string strips to
itself.  `chunk_size` and `chunk_overlap` are the constructor fields. -/
def chunk (chunk_size chunk_overlap : Nat) (text : List Char) :
    List DocumentChunk :=
  if stripChars text = [] then []
  else ((split_by_headings text).foldl (sectionStep chunk_size chunk_overlap)
    ([], 0)).1

/-- The loop state of `chunk` is aligned when the running index equals the
number of accumulated chunks and every accumulated chunk's index is its
position. -/
def idxAligned (st : List DocumentChunk × Nat) : Prop :=
  st.2 = st.1.length ∧
    ∀ (i : Nat) (c : DocumentChunk), st.1.get? i = some c → c.index = i

/-- The index-free content of a chunk: its text, heading label and estimate. -/
def content (c : DocumentChunk) : List Char × Option (List Char) × Option Nat :=
  (c.text, c.sec, c.tokens)

/-- The contents contributed by one section of `chunk`: a singleton for a
section within `chunk_size`, one entry per sliding window otherwise. -/
def pieces (chunk_size chunk_overlap : Nat) (s : Option (List Char) × List Char) :
    List (List Char × Option (List Char) × Option Nat) :=
  let token_count := estimate_tokens s.2
  if token_count ≤ chunk_size then [(stripChars s.2, s.1, some token_count)]
  else (sliding_window chunk_size chunk_overlap s.2).map
    (fun sub => (stripChars sub, s.1, some (estimate_tokens sub)))

/-- A 40-character paragraph, estimate 10: oversized for `chunk_size = 2`. -/
def bigPara : List Char := List.replicate 40 'b'

/-- Two paragraphs (estimates 1 and 10): the second overflows a window of
size 2 after the first has been flushed and carried over as overlap. -/
def cexText : List Char := "aaaa\n\n".toList ++ bigPara

/-! ## Job queue (src/alchemy/queue/worker.py)

The scheduler core is modelled with explicit state passing: `_execute`
mutates the `Job` in place in Python; here it maps a job to its new value.
Within `_execute` there is no `await`-free suspension point between the
individual field assignments, so the intermediate states are not observable
by other coroutines and `execute` is modelled as one atomic transformation
composed of the RUNNING transition followed by the terminal transition.
The external parsers are out of scope: a capability takes the job's payload
and either returns a structured result or fails with an error message, the
payload-key extraction (`p["content"]`, ...) being part of the capability
invocation (a missing key surfaces as a failure, exactly like a parser
error, since `_execute` catches every exception).  `time.time()` is
modelled by an explicit `now` argument. -/

/-- `JobStatus` (src/alchemy/schemas.py). -/
inductive JobStatus
  | pending
  | running
  | done
  | failed
deriving DecidableEq, Repr

/-- The `Job` dataclass.  `π` is the payload type (`dict[str, Any]` in
Python), `α` the result type produced by the capabilities. -/
structure Job (π α : Type) where
  id : String
  task : String
  payload : π
  status : JobStatus := .pending
  result : Option α := none
  error : Option String := none
  created_at : Nat := 0
  completed_at : Option Nat := none
deriving DecidableEq, Repr

/-- Job construction at submission time: only `id`, `task`, `payload` and
the creation timestamp are supplied; every other field keeps its dataclass
default. -/
def mkJob {π α : Type} (id task : String) (payload : π) (created : Nat) :
    Job π α :=
  { id := id, task := task, payload := payload, created_at := created }

/-- The task-execution capability set reached through `ModelManager`: one
fallible function per recognized task kind. -/
structure Caps (π α : Type) where
  parse_document : π → Except String α
  parse_image : π → Except String α
  parse_audio : π → Except String α
  parse_video : π → Except String α
  parse_web : π → Except String α

/-- `JobQueue._dispatch`: route on the task kind; an unrecognized kind
raises `ValueError(f"Unknown task: {job.task}")`, modelled as the
corresponding error message. -/
def dispatch {π α : Type} (caps : Caps π α) (j : Job π α) : Except String α :=
  if j.task = "parse_document" then caps.parse_document j.payload
  else if j.task = "parse_image" then caps.parse_image j.payload
  else if j.task = "parse_audio" then caps.parse_audio j.payload
  else if j.task = "parse_video" then caps.parse_video j.payload
  else if j.task = "parse_web" then caps.parse_web j.payload
  else .error ("Unknown task: " ++ j.task)

/-- The recognized task kinds (the `case` labels of `_dispatch`). -/
def knownTasks : List String :=
  ["parse_document", "parse_image", "parse_audio", "parse_video", "parse_web"]

/-- The first statement of `_execute`: `job.status = JobStatus.RUNNING`. -/
def setRunning {π α : Type} (j : Job π α) : Job π α :=
  { j with status := .running }

/-- The `try/except/finally` body of `_execute`: on success set `result`
then `DONE`; on any exception set `error := str(e)` then `FAILED`; in both
cases the `finally` block sets `completed_at` afterwards. -/
def finishJob {π α : Type} (caps : Caps π α) (now : Nat) (j : Job π α) :
    Job π α :=
  match dispatch caps j with
  | .ok r => { j with result := some r, status := .done, completed_at := some now }
  | .error e => { j with error := some e, status := .failed, completed_at := some now }

/-- `JobQueue._execute`: the shared execution routine used by both the
worker loop and `run_sync`. -/
def execute {π α : Type} (caps : Caps π α) (now : Nat) (j : Job π α) :
    Job π α :=
  finishJob caps now (setRunning j)

/-- The in-memory job registry `self._jobs` (`dict[str, Job]`); the most
recent binding of an id wins, as in a Python dict. -/
abbrev Registry (π α : Type) : Type := List (String × Job π α)

/-- Register (or overwrite) a job under its id. -/
def setJob {π α : Type} (reg : Registry π α) (j : Job π α) : Registry π α :=
  (j.id, j) :: reg

/-- `JobQueue.get_job`: `self._jobs.get(job_id)`. -/
def get_job {π α : Type} (reg : Registry π α) (id : String) :
    Option (Job π α) :=
  (reg.find? (fun e => e.1 == id)).map (fun e => e.2)

/-- Python truthiness of `job.error` in `if job.error:`: `None` and the
empty string are falsy. -/
def errTruthy : Option String → Bool
  | none => false
  | some e => e != ""

/-- `JobQueue.run_sync`: register the job, execute it inline, then
`if job.error: raise RuntimeError(job.error)` else `return job.result`.
Python stores a reference, so after execution the registry holds the
job's terminal state; the raised error is modelled as `Except.error`,
the returned `job.result` (possibly `None`) as `Except.ok`. -/
def run_sync {π α : Type} (caps : Caps π α) (now : Nat) (reg : Registry π α)
    (j : Job π α) : Registry π α × Except String (Option α) :=
  let j2 := execute caps now j
  let reg2 := setJob reg j2
  if errTruthy j2.error then (reg2, .error (j2.error.getD ""))
  else (reg2, .ok j2.result)

/-- Job states reachable by creating a job and executing it at most once
through the shared execution routine (a worker dequeue or `run_sync`); the
`j.status = .pending` guard records that a job is executed only once (the
queue hands each job to exactly one executor). -/
inductive Reachable {π α : Type} (caps : Caps π α) : Job π α → Prop
  | created (id task : String) (payload : π) (created : Nat) :
      Reachable caps (mkJob id task payload created)
  | executed (j : Job π α) (now : Nat) :
      Reachable caps j → j.status = .pending →
      Reachable caps (execute caps now j)

/-- Rank of a status along the lifecycle PENDING → RUNNING → {DONE, FAILED};
used to state that transitions only move forward. -/
def statusRank : JobStatus → Nat
  | .pending => 0
  | .running => 1
  | .done => 2
  | .failed => 2

/-- A trivial capability set for instantiating the scheduler theorems on
concrete inputs: every capability succeeds with `()`. -/
def okCaps : Caps Unit Unit :=
  { parse_document := fun _ => .ok ()
    parse_image := fun _ => .ok ()
    parse_audio := fun _ => .ok ()
    parse_video := fun _ => .ok ()
    parse_web := fun _ => .ok () }

/-- A capability set whose document parser fails with an empty message
(Python: an exception `e` with `str(e) == ""`), the edge case that makes
`if job.error:` falsy in `run_sync`. -/
def emptyErrCaps : Caps Unit Unit :=
  { parse_document := fun _ => .error ""
    parse_image := fun _ => .error "boom"
    parse_audio := fun _ => .error "boom"
    parse_video := fun _ => .error "boom"
    parse_web := fun _ => .error "boom" }

/-! ## List and strip lemmas -/

theorem dropWhile_head_false {α : Type} (p : α → Bool) :
    ∀ (l : List α) (c : α) (t : List α), l.dropWhile p = c :: t → p c = false
  | [], c, t, h => by simp at h
  | a :: l, c, t, h => by
    rw [List.dropWhile_cons] at h
    by_cases ha : p a = true
    · rw [if_pos ha] at h
      exact dropWhile_head_false p l c t h
    · rw [if_neg ha] at h
      cases h
      simpa using ha

theorem dropWhile_dropWhile {α : Type} (p : α → Bool) (l : List α) :
    (l.dropWhile p).dropWhile p = l.dropWhile p := by
  cases h : l.dropWhile p with
  | nil => rfl
  | cons c t =>
    rw [List.dropWhile_cons, if_neg]
    simp [dropWhile_head_false p l c t h]

/-- Trimming the right end of a left-trimmed list keeps it left-trimmed. -/
theorem dropWhile_reverse_trimmed {α : Type} (p : α → Bool) (m : List α)
    (hm : m.dropWhile p = m) :
    ((m.reverse.dropWhile p).reverse).dropWhile p = (m.reverse.dropWhile p).reverse := by
  cases m with
  | nil => simp
  | cons c t =>
    have hc : p c = false := by
      by_cases hpc : p c = true
      · rw [List.dropWhile_cons, if_pos hpc] at hm
        have := dropWhile_head_false p t c t hm
        rw [hpc] at this
        cases this
      · simpa using hpc
    have hsplit : c :: t =
        ((c :: t).reverse.dropWhile p).reverse ++ ((c :: t).reverse.takeWhile p).reverse := by
      conv_lhs => rw [← (c :: t).reverse_reverse]
      conv_lhs => rw [← List.takeWhile_append_dropWhile p (c :: t).reverse]
      rw [List.reverse_append]
    cases hD : ((c :: t).reverse.dropWhile p).reverse with
    | nil => simp
    | cons d ds =>
      rw [hD, List.cons_append] at hsplit
      injection hsplit with h1 _
      have hpd : p d = false := by
        rw [← h1]
        exact hc
      rw [List.dropWhile_cons, if_neg (by simp [hpd])]

/-- `strip` is idempotent. -/
theorem strip_idem (l : List Char) : stripChars (stripChars l) = stripChars l := by
  unfold stripChars
  rw [dropWhile_reverse_trimmed isWs (l.dropWhile isWs) (dropWhile_dropWhile isWs l),
    List.reverse_reverse, dropWhile_dropWhile]

/-- `strip` yields the empty string exactly on all-whitespace input. -/
theorem stripChars_eq_nil_iff (l : List Char) :
    stripChars l = [] ↔ ∀ c ∈ l, isWs c := by
  unfold stripChars
  rw [List.reverse_eq_nil_iff, List.dropWhile_eq_nil_iff]
  constructor
  · intro h c hc
    rw [← List.takeWhile_append_dropWhile isWs l] at hc
    rcases List.mem_append.mp hc with h1 | h1
    · exact List.mem_takeWhile_imp h1
    · exact h c (List.mem_reverse.mpr h1)
  · intro h c hc
    refine h c ?_
    have h1 : c ∈ l.dropWhile isWs := List.mem_reverse.mp hc
    rw [← List.takeWhile_append_dropWhile isWs l]
    exact List.mem_append.mpr (Or.inr h1)

/-- A non-empty stripped string contains a non-whitespace character. -/
theorem stripped_not_all_ws (s : List Char) (h : stripChars s ≠ []) :
    ¬(∀ ch ∈ stripChars s, isWs ch) := by
  intro hall
  exact h (by rw [← strip_idem]; exact (stripChars_eq_nil_iff (stripChars s)).mpr hall)

/-- Membership facts about the paragraphs of `_sliding_window`: every
paragraph is non-empty and already stripped. -/
theorem paragraphsOf_mem (text : List Char) (q : List Char)
    (hq : q ∈ paragraphsOf text) : q ≠ [] ∧ stripChars q = q := by
  unfold paragraphsOf at hq
  rcases List.mem_filter.mp hq with ⟨hmap, hne⟩
  rcases List.mem_map.mp hmap with ⟨raw, _, hraw⟩
  constructor
  · intro hnil
    rw [hnil] at hne
    simp at hne
  · rw [← hraw, strip_idem]

/-- A character of a member string is a character of the join. -/
theorem joinSep_mem (sep : List Char) :
    ∀ (w : List (List Char)) (q : List Char) (ch : Char),
      q ∈ w → ch ∈ q → ch ∈ joinSep sep w
  | [], q, ch, hq, _ => by cases hq
  | [x], q, ch, hq, hch => by
    rcases List.mem_singleton.mp hq with rfl
    simpa [joinSep] using hch
  | x :: y :: rest, q, ch, hq, hch => by
    rcases hq with _ | hq2
    · exact List.mem_append.mpr (Or.inl (List.mem_append.mpr (Or.inl hch)))
    · exact List.mem_append.mpr
        (Or.inr (joinSep_mem sep (y :: rest) q ch (by assumption) hch))

/-! ## Sliding-window lemmas -/

theorem overlapAccum_spec (cap : Nat) :
    ∀ (l : List (List Char)) (tok : Nat) (acc : List (List Char)),
      ∃ s, (∃ t2, s ++ t2 = l) ∧
        (overlapAccum cap l tok acc).1 = s.reverse ++ acc ∧
        (overlapAccum cap l tok acc).2 = tok + (s.map estimate_tokens).sum
  | [], tok, acc => ⟨[], ⟨[], rfl⟩, by simp [overlapAccum], by simp [overlapAccum]⟩
  | p :: rest, tok, acc => by
    simp only [overlapAccum]
    by_cases h : cap < tok + estimate_tokens p
    · rw [if_pos h]
      exact ⟨[], ⟨p :: rest, rfl⟩, by simp, by simp⟩
    · rw [if_neg h]
      obtain ⟨s, ⟨t2, ht⟩, h1, h2⟩ :=
        overlapAccum_spec cap rest (tok + estimate_tokens p) (p :: acc)
      refine ⟨p :: s, ⟨t2, by rw [List.cons_append, ht]⟩, ?_, ?_⟩
      · rw [h1]
        simp
      · rw [h2]
        simp [Nat.add_assoc]

theorem overlapAccum_le (cap : Nat) :
    ∀ (l : List (List Char)) (tok : Nat) (acc : List (List Char)),
      tok ≤ cap → (overlapAccum cap l tok acc).2 ≤ cap
  | [], tok, acc, h => by simpa [overlapAccum] using h
  | p :: rest, tok, acc, h => by
    simp only [overlapAccum]
    by_cases hlt : cap < tok + estimate_tokens p
    · rw [if_pos hlt]
      exact h
    · rw [if_neg hlt]
      exact overlapAccum_le cap rest _ (p :: acc) (Nat.le_of_not_lt hlt)

theorem overlapOf_suffix (cap : Nat) (paras : List (List Char)) :
    (overlapOf cap paras).1 <:+ paras := by
  obtain ⟨s, ⟨t2, ht⟩, h1, _⟩ := overlapAccum_spec cap paras.reverse 0 []
  refine ⟨t2.reverse, ?_⟩
  have : (s ++ t2).reverse = paras.reverse.reverse := by rw [ht]
  rw [List.reverse_append, List.reverse_reverse] at this
  rw [overlapOf, h1, List.append_nil]
  exact this

theorem overlapOf_sum (cap : Nat) (paras : List (List Char)) :
    (overlapOf cap paras).2 = ((overlapOf cap paras).1.map estimate_tokens).sum := by
  obtain ⟨s, _, h1, h2⟩ := overlapAccum_spec cap paras.reverse 0 []
  rw [overlapOf, h1, h2, List.append_nil, List.map_reverse, List.sum_reverse,
    Nat.zero_add]

theorem overlapOf_le (cap : Nat) (paras : List (List Char)) :
    (overlapOf cap paras).2 ≤ cap :=
  overlapAccum_le cap paras.reverse 0 [] (Nat.zero_le cap)

theorem swStep_sim (size cap : Nat) (stw : SWState) (stp : SWParas)
    (q : List Char)
    (h1 : stw.windows = stp.windows.map (joinSep nlnl))
    (h2 : stw.current_paras = stp.current_paras)
    (h3 : stw.current_tokens = stp.current_tokens) :
    (swStep size cap stw q).windows =
      (swStepP size cap stp q).windows.map (joinSep nlnl) ∧
    (swStep size cap stw q).current_paras =
      (swStepP size cap stp q).current_paras ∧
    (swStep size cap stw q).current_tokens =
      (swStepP size cap stp q).current_tokens := by
  simp only [swStep, swStepP]
  rw [h2, h3]
  by_cases hc : size < stp.current_tokens + estimate_tokens q ∧
      stp.current_paras ≠ []
  · rw [if_pos hc, if_pos hc]
    refine ⟨?_, rfl, rfl⟩
    simp [h1]
  · rw [if_neg hc, if_neg hc]
    exact ⟨h1, rfl, rfl⟩

theorem swfold_sim (size cap : Nat) :
    ∀ (paras : List (List Char)) (stw : SWState) (stp : SWParas),
      stw.windows = stp.windows.map (joinSep nlnl) →
      stw.current_paras = stp.current_paras →
      stw.current_tokens = stp.current_tokens →
      (paras.foldl (swStep size cap) stw).windows =
        (paras.foldl (swStepP size cap) stp).windows.map (joinSep nlnl) ∧
      (paras.foldl (swStep size cap) stw).current_paras =
        (paras.foldl (swStepP size cap) stp).current_paras ∧
      (paras.foldl (swStep size cap) stw).current_tokens =
        (paras.foldl (swStepP size cap) stp).current_tokens
  | [], stw, stp, h1, h2, h3 => ⟨h1, h2, h3⟩
  | q :: paras, stw, stp, h1, h2, h3 => by
    rw [List.foldl_cons, List.foldl_cons]
    obtain ⟨g1, g2, g3⟩ := swStep_sim size cap stw stp q h1 h2 h3
    exact swfold_sim size cap paras _ _ g1 g2 g3

/-- `_sliding_window` returns exactly the `"\n\n"`-joins of its windows
taken as paragraph lists. -/
theorem sliding_window_eq (size cap : Nat) (text : List Char) :
    sliding_window size cap text =
      (slidingWindowParas size cap text).map (joinSep nlnl) := by
  simp only [sliding_window, slidingWindowParas]
  obtain ⟨h1, h2, h3⟩ := swfold_sim size cap (paragraphsOf text)
    ⟨[], [], 0⟩ ⟨[], [], 0⟩ rfl rfl rfl
  rw [h1, h2, List.map_append]
  by_cases h : ((paragraphsOf text).foldl (swStepP size cap)
      ⟨[], [], 0⟩).current_paras = [] <;> simp [h]

theorem swStepP_inWin (size cap : Nat) (st : SWParas) (q p : List Char)
    (h : swInWin st p) : swInWin (swStepP size cap st q) p := by
  simp only [swInWin, swStepP] at h ⊢
  by_cases hc : size < st.current_tokens + estimate_tokens q ∧
      st.current_paras ≠ []
  · rw [if_pos hc]
    rcases h with hcur | ⟨w, hw, hpw⟩
    · exact Or.inr ⟨st.current_paras, by simp, hcur⟩
    · exact Or.inr ⟨w, by simp [hw], hpw⟩
  · rw [if_neg hc]
    rcases h with hcur | hw
    · exact Or.inl (by simp [hcur])
    · exact Or.inr hw

theorem swStepP_self (size cap : Nat) (st : SWParas) (q : List Char) :
    swInWin (swStepP size cap st q) q := by
  simp only [swInWin, swStepP]
  by_cases hc : size < st.current_tokens + estimate_tokens q ∧
      st.current_paras ≠ []
  · rw [if_pos hc]
    exact Or.inl (by simp)
  · rw [if_neg hc]
    exact Or.inl (by simp)

theorem swfoldP_inWin (size cap : Nat) :
    ∀ (l : List (List Char)) (st : SWParas) (p : List Char),
      swInWin st p → swInWin (l.foldl (swStepP size cap) st) p
  | [], _, _, h => h
  | q :: l, st, p, h => by
    rw [List.foldl_cons]
    exact swfoldP_inWin size cap l _ p (swStepP_inWin size cap st q p h)

theorem swfoldP_mem (size cap : Nat) :
    ∀ (l : List (List Char)) (st : SWParas) (p : List Char),
      p ∈ l → swInWin (l.foldl (swStepP size cap) st) p
  | [], _, p, h => absurd h (List.not_mem_nil p)
  | q :: l, st, p, h => by
    rw [List.foldl_cons]
    rcases List.mem_cons.mp h with rfl | h2
    · exact swfoldP_inWin size cap l _ p (swStepP_self size cap st p)
    · exact swfoldP_mem size cap l _ p h2

/-- Every paragraph of the input lands whole inside some emitted window. -/
theorem slidingWindowParas_mem (size cap : Nat) (text : List Char)
    (p : List Char) (hp : p ∈ paragraphsOf text) :
    ∃ w ∈ slidingWindowParas size cap text, p ∈ w := by
  simp only [slidingWindowParas]
  rcases swfoldP_mem size cap (paragraphsOf text) ⟨[], [], 0⟩ p hp with
    hcur | ⟨w, hw, hpw⟩
  · have hne : ((paragraphsOf text).foldl (swStepP size cap)
        ⟨[], [], 0⟩).current_paras ≠ [] := by
      intro h0
      rw [h0] at hcur
      cases hcur
    refine ⟨_, ?_, hcur⟩
    rw [if_neg hne]
    simp
  · exact ⟨w, List.mem_append.mpr (Or.inl hw), hpw⟩

theorem swStepP_good (paras0 : List (List Char)) (size cap : Nat)
    (st : SWParas) (q : List Char) (hst : swGood paras0 st)
    (hq : q ∈ paras0) : swGood paras0 (swStepP size cap st q) := by
  obtain ⟨hw, hcur⟩ := hst
  simp only [swGood, swStepP]
  by_cases hc : size < st.current_tokens + estimate_tokens q ∧
      st.current_paras ≠ []
  · rw [if_pos hc]
    constructor
    · intro w hwmem
      rcases List.mem_append.mp hwmem with h1 | h1
      · exact hw w h1
      · rcases List.mem_singleton.mp h1 with rfl
        exact ⟨hc.2, hcur⟩
    · intro p hp
      rcases List.mem_append.mp hp with h1 | h1
      · obtain ⟨t2, hsuf⟩ := overlapOf_suffix cap st.current_paras
        exact hcur p (by rw [← hsuf]; exact List.mem_append.mpr (Or.inr h1))
      · rcases List.mem_singleton.mp h1 with rfl
        exact hq
  · rw [if_neg hc]
    refine ⟨hw, ?_⟩
    intro p hp
    rcases List.mem_append.mp hp with h1 | h1
    · exact hcur p h1
    · rcases List.mem_singleton.mp h1 with rfl
      exact hq

theorem swfoldP_good (paras0 : List (List Char)) (size cap : Nat) :
    ∀ (l : List (List Char)) (st : SWParas),
      swGood paras0 st → (∀ q ∈ l, q ∈ paras0) →
      swGood paras0 (l.foldl (swStepP size cap) st)
  | [], _, hst, _ => hst
  | q :: l, st, hst, hl => by
    rw [List.foldl_cons]
    exact swfoldP_good paras0 size cap l _
      (swStepP_good paras0 size cap st q hst (hl q (by simp)))
      (fun q2 hq2 => hl q2 (by simp [hq2]))

/-- Emitted windows are non-empty and consist of input paragraphs. -/
theorem slidingWindowParas_good (size cap : Nat) (text : List Char)
    (w : List (List Char)) (hw : w ∈ slidingWindowParas size cap text) :
    w ≠ [] ∧ ∀ q ∈ w, q ∈ paragraphsOf text := by
  have hg := swfoldP_good (paragraphsOf text) size cap (paragraphsOf text)
    ⟨[], [], 0⟩
    ⟨fun w2 hw2 => absurd hw2 (List.not_mem_nil w2),
     fun q hq => absurd hq (List.not_mem_nil q)⟩
    (fun q hq => hq)
  simp only [slidingWindowParas] at hw
  rcases List.mem_append.mp hw with h1 | h1
  · exact hg.1 w h1
  · by_cases hnil : ((paragraphsOf text).foldl (swStepP size cap)
        ⟨[], [], 0⟩).current_paras = []
    · rw [if_pos hnil] at h1
      cases h1
    · rw [if_neg hnil] at h1
      rcases List.mem_singleton.mp h1 with rfl
      exact ⟨hnil, hg.2⟩

/-! ## Chunk-fold lemmas -/

theorem subfold_content (title : Option (List Char)) :
    ∀ (subs : List (List Char)) (acc : List DocumentChunk) (n : Nat),
      ((subs.foldl (subStep title) (acc, n)).1).map content =
        acc.map content ++
          subs.map (fun sub => (stripChars sub, title, some (estimate_tokens sub)))
  | [], acc, n => by simp
  | s :: subs, acc, n => by
    have hstep : subStep title (acc, n) s =
        (acc ++ [{ index := n, text := stripChars s, sec := title,
                   tokens := some (estimate_tokens s) }], n + 1) := rfl
    rw [List.foldl_cons, hstep, subfold_content title subs _ _]
    simp [content]

theorem fold_content (size cap : Nat) :
    ∀ (secs : List (Option (List Char) × List Char))
      (acc : List DocumentChunk) (n : Nat),
      ((secs.foldl (sectionStep size cap) (acc, n)).1).map content =
        acc.map content ++ (secs.map (pieces size cap)).flatten
  | [], acc, n => by simp
  | s :: secs, acc, n => by
    rw [List.foldl_cons]
    by_cases h : estimate_tokens s.2 ≤ size
    · have hstep : sectionStep size cap (acc, n) s =
          (acc ++ [{ index := n, text := stripChars s.2, sec := s.1,
                     tokens := some (estimate_tokens s.2) }], n + 1) := by
        simp only [sectionStep]
        rw [if_pos h]
      rw [hstep, fold_content size cap secs _ _]
      simp [content, pieces, h]
    · have hstep : sectionStep size cap (acc, n) s =
          (sliding_window size cap s.2).foldl (subStep s.1) (acc, n) := by
        simp only [sectionStep]
        rw [if_neg h]
      rw [hstep]
      have hrec := fold_content size cap secs
        ((sliding_window size cap s.2).foldl (subStep s.1) (acc, n)).1
        ((sliding_window size cap s.2).foldl (subStep s.1) (acc, n)).2
      rw [Prod.mk.eta] at hrec
      rw [hrec, subfold_content s.1 (sliding_window size cap s.2) acc n]
      simp [pieces, h]

theorem idxAligned_snoc (l : List DocumentChunk) (n : Nat) (c : DocumentChunk)
    (h : idxAligned (l, n)) (hc : c.index = n) : idxAligned (l ++ [c], n + 1) := by
  obtain ⟨hlen, hidx⟩ := h
  constructor
  · simp only at hlen
    simp [hlen]
  · intro i d hd
    by_cases hi : i < l.length
    · rw [List.get?_append hi] at hd
      exact hidx i d hd
    · by_cases hieq : i = l.length
      · subst hieq
        rw [List.get?_concat_length] at hd
        cases hd
        simp only at hlen
        rw [hc, hlen]
      · have hlarge : (l ++ [c]).length ≤ i := by
          rw [List.length_append]
          simp only [List.length_singleton]
          omega
        rw [List.get?_eq_none.mpr hlarge] at hd
        cases hd

theorem subfold_idx (title : Option (List Char)) :
    ∀ (subs : List (List Char)) (st : List DocumentChunk × Nat),
      idxAligned st → idxAligned (subs.foldl (subStep title) st)
  | [], _, h => h
  | s :: subs, st, h => by
    rw [List.foldl_cons]
    exact subfold_idx title subs _ (idxAligned_snoc st.1 st.2 _ h rfl)

theorem fold_idx (size cap : Nat) :
    ∀ (secs : List (Option (List Char) × List Char))
      (st : List DocumentChunk × Nat),
      idxAligned st → idxAligned (secs.foldl (sectionStep size cap) st)
  | [], _, h => h
  | s :: secs, st, h => by
    rw [List.foldl_cons]
    refine fold_idx size cap secs _ ?_
    simp only [sectionStep]
    by_cases hc : estimate_tokens s.2 ≤ size
    · rw [if_pos hc]
      exact idxAligned_snoc st.1 st.2 _ h rfl
    · rw [if_neg hc]
      exact subfold_idx s.1 _ _ h

/-! ## Section lemmas -/

theorem sectionsFrom_body (text : List Char) :
    ∀ (ms : List (Nat × Nat × List Char)) (tb : Option (List Char) × List Char),
      tb ∈ sectionsFrom text ms → tb.2 ≠ [] ∧ stripChars tb.2 = tb.2
  | [], tb, h => absurd h (List.not_mem_nil tb)
  | m :: ms, tb, h => by
    simp only [sectionsFrom] at h
    rcases List.mem_append.mp h with h1 | h1
    · split at h1
      · exact absurd h1 (List.not_mem_nil tb)
      · next hbody =>
          rcases List.mem_singleton.mp h1 with rfl
          exact ⟨hbody, strip_idem _⟩
    · exact sectionsFrom_body text ms tb h1

/-- Every section body is the whole input (no-headings case) or a
non-empty stripped string. -/
theorem split_by_headings_body (text : List Char)
    (tb : Option (List Char) × List Char) (h : tb ∈ split_by_headings text) :
    tb.2 = text ∨ (tb.2 ≠ [] ∧ stripChars tb.2 = tb.2) := by
  unfold split_by_headings at h
  split at h
  · rcases List.mem_singleton.mp h with rfl
    exact Or.inl rfl
  · refine Or.inr ?_
    rcases List.mem_append.mp h with h1 | h1
    · split at h1
      · exact absurd h1 (List.not_mem_nil tb)
      · next hpre =>
          rcases List.mem_singleton.mp h1 with rfl
          exact ⟨hpre, strip_idem _⟩
    · exact sectionsFrom_body text _ tb h1

/-! ## Scheduler lemmas -/

theorem execute_ok {π α : Type} (caps : Caps π α) (now : Nat) (j : Job π α)
    (r : α) (h : dispatch caps (setRunning j) = .ok r) :
    execute caps now j =
      { setRunning j with result := some r, status := .done,
                          completed_at := some now } := by
  unfold execute finishJob
  rw [h]

theorem execute_err {π α : Type} (caps : Caps π α) (now : Nat) (j : Job π α)
    (e : String) (h : dispatch caps (setRunning j) = .error e) :
    execute caps now j =
      { setRunning j with error := some e, status := .failed,
                          completed_at := some now } := by
  unfold execute finishJob
  rw [h]

theorem execute_id {π α : Type} (caps : Caps π α) (now : Nat) (j : Job π α) :
    (execute caps now j).id = j.id := by
  cases h : dispatch caps (setRunning j)
  · rw [execute_err caps now j _ h]; rfl
  · rw [execute_ok caps now j _ h]; rfl

theorem execute_terminal {π α : Type} (caps : Caps π α) (now : Nat)
    (j : Job π α) :
    (execute caps now j).status = .done ∨ (execute caps now j).status = .failed := by
  cases h : dispatch caps (setRunning j)
  · right; rw [execute_err caps now j _ h]
  · left; rw [execute_ok caps now j _ h]

theorem run_sync_eq {π α : Type} (caps : Caps π α) (now : Nat)
    (reg : Registry π α) (j : Job π α) :
    run_sync caps now reg j =
      (setJob reg (execute caps now j),
        if errTruthy (execute caps now j).error = true then
          Except.error ((execute caps now j).error.getD "")
        else Except.ok (execute caps now j).result) := by
  unfold run_sync
  by_cases h : errTruthy (execute caps now j).error <;> simp [h]

/-! ## Claims C1 - C4 (src/alchemy/queue/worker.py) -/

/-- C1: the shared execution routine `_execute` first sets the job RUNNING
(`execute` is the terminal step applied to `setRunning j`), then dispatches;
on success it stores the result and sets DONE, on any failure (capability
error or unknown task kind) it stores the message as the job's error and
sets FAILED; `completed_at`, absent until then, is set to the current time
by the `finally` block, so on the executed job it is present if and only if
the status is DONE or FAILED. -/
theorem claim_C1 {π α : Type} (caps : Caps π α) (now : Nat) (j : Job π α)
    (hp : j.status = .pending) (hc : j.completed_at = none) :
    (setRunning j).status = .running ∧
    execute caps now j = finishJob caps now (setRunning j) ∧
    (setRunning j).completed_at = none ∧
    ((execute caps now j).status = .done ∨ (execute caps now j).status = .failed) ∧
    (∀ r, dispatch caps (setRunning j) = .ok r →
      (execute caps now j).status = .done ∧ (execute caps now j).result = some r) ∧
    (∀ e, dispatch caps (setRunning j) = .error e →
      (execute caps now j).status = .failed ∧ (execute caps now j).error = some e) ∧
    (execute caps now j).completed_at = some now ∧
    ((execute caps now j).completed_at.isSome ↔
      ((execute caps now j).status = .done ∨ (execute caps now j).status = .failed)) := by
  refine ⟨rfl, rfl, by simp [setRunning, hc], execute_terminal caps now j, ?_, ?_, ?_, ?_⟩
  · intro r hr
    simp [execute, finishJob, hr]
  · intro e he
    simp [execute, finishJob, he]
  · unfold execute finishJob
    cases dispatch caps (setRunning j) <;> rfl
  · have h := execute_terminal caps now j
    unfold execute finishJob at *
    cases dispatch caps (setRunning j) <;> simp

/-- Witness for C1 at a concrete job and capability set. -/
theorem claim_C1_witness :
    (execute okCaps 5 (mkJob "j1" "parse_web" () 0)).status = JobStatus.done ∧
    (execute okCaps 5 (mkJob "j1" "parse_web" () 0)).completed_at = some 5 := by
  have h := claim_C1 okCaps 5 (mkJob "j1" "parse_web" () 0) rfl rfl
  exact ⟨(h.2.2.2.2.1 () rfl).1, h.2.2.2.2.2.2.1⟩

/-- C2 as stated is false: when the capability fails with an *empty*
message, `job.error` is `""`, which is falsy in `if job.error:`, so
`run_sync` returns `job.result` (`None`) instead of raising, even though
`get_job` then observes the job FAILED with that captured error. -/
theorem claim_C2_counterexample :
    (run_sync emptyErrCaps 5 ([] : Registry Unit Unit)
      (mkJob "j1" "parse_document" () 0)).2 = Except.ok none ∧
    (get_job (run_sync emptyErrCaps 5 ([] : Registry Unit Unit)
      (mkJob "j1" "parse_document" () 0)).1 "j1").map Job.status =
        some JobStatus.failed ∧
    (get_job (run_sync emptyErrCaps 5 ([] : Registry Unit Unit)
      (mkJob "j1" "parse_document" () 0)).1 "j1").map Job.error =
        some (some "") :=
  ⟨rfl, rfl, rfl⟩

/-- C2 amended: `run_sync` returns the result when execution succeeds, and
raises the captured error when execution fails with a non-empty message;
when the failure message is empty it instead returns the job's result
(`None`) despite the FAILED terminal state.  In every case the state later
observed via `get_job(job.id)` is the executed job's terminal state. -/
theorem claim_C2 {π α : Type} (caps : Caps π α) (now : Nat)
    (reg : Registry π α) (j : Job π α)
    (hp : j.status = .pending) (he : j.error = none) :
    get_job (run_sync caps now reg j).1 j.id = some (execute caps now j) ∧
    ((execute caps now j).status = .done →
      (run_sync caps now reg j).2 = .ok (execute caps now j).result) ∧
    (∀ e, (execute caps now j).error = some e → e ≠ "" →
      (execute caps now j).status = .failed ∧
      (run_sync caps now reg j).2 = .error e) ∧
    ((execute caps now j).error = some "" →
      (execute caps now j).status = .failed ∧
      (run_sync caps now reg j).2 = .ok (execute caps now j).result) := by
  have hid : ((execute caps now j).id == j.id) = true := by
    simp [execute_id]
  refine ⟨?_, ?_, ?_, ?_⟩
  · rw [run_sync_eq]
    simp [get_job, setJob, List.find?, hid]
  · intro hdone
    have herr : (execute caps now j).error = none := by
      cases h : dispatch caps (setRunning j)
      · rw [execute_err caps now j _ h] at hdone
        simp at hdone
      · rw [execute_ok caps now j _ h]
        simpa [setRunning] using he
    rw [run_sync_eq, herr]
    rfl
  · intro e hsome hne
    have hst : (execute caps now j).status = .failed := by
      cases h : dispatch caps (setRunning j)
      · rw [execute_err caps now j _ h]
      · rw [execute_ok caps now j _ h] at hsome
        simp [setRunning, he] at hsome
    refine ⟨hst, ?_⟩
    rw [run_sync_eq, hsome]
    simp [errTruthy, hne]
  · intro hsome
    have hst : (execute caps now j).status = .failed := by
      cases h : dispatch caps (setRunning j)
      · rw [execute_err caps now j _ h]
      · rw [execute_ok caps now j _ h] at hsome
        simp [setRunning, he] at hsome
    refine ⟨hst, ?_⟩
    rw [run_sync_eq, hsome]
    rfl

/-- Witness for C2 (amended) at a concrete job and capability set. -/
theorem claim_C2_witness :
    get_job (run_sync okCaps 5 ([] : Registry Unit Unit)
      (mkJob "j1" "parse_web" () 0)).1 "j1" =
        some (execute okCaps 5 (mkJob "j1" "parse_web" () 0)) ∧
    (run_sync okCaps 5 ([] : Registry Unit Unit)
      (mkJob "j1" "parse_web" () 0)).2 = Except.ok (some ()) := by
  have h := claim_C2 okCaps 5 ([] : Registry Unit Unit)
    (mkJob "j1" "parse_web" () 0) rfl rfl
  exact ⟨h.1, h.2.1 rfl⟩

/-- C3: on every job state reachable by creating a job and executing it at
most once, the status only moves forward along PENDING → RUNNING →
{DONE, FAILED}, DONE and FAILED are mutually exclusive, the result is
present iff the status is DONE and the error is present iff the status is
FAILED ("non-empty" reads as Python "is not None": these are `Optional`
fields that start out `None`). -/
theorem claim_C3 {π α : Type} (caps : Caps π α) (j : Job π α)
    (h : Reachable caps j) :
    (j.result.isSome ↔ j.status = .done) ∧
    (j.error.isSome ↔ j.status = .failed) ∧
    ¬(j.status = .done ∧ j.status = .failed) ∧
    (j.status = .pending ∨ j.status = .done ∨ j.status = .failed) ∧
    (∀ now, j.status = .pending →
      statusRank j.status ≤ statusRank (setRunning j).status ∧
      statusRank (setRunning j).status ≤ statusRank (execute caps now j).status) := by
  induction h with
  | created id task payload created =>
    refine ⟨by simp [mkJob], by simp [mkJob], by simp [mkJob], by simp [mkJob], ?_⟩
    intro now _
    refine ⟨by simp [mkJob, setRunning, statusRank], ?_⟩
    rcases execute_terminal caps now (mkJob id task payload created) with ht | ht <;>
      simp [ht, setRunning, statusRank]
  | executed j now hr hp ih =>
    have hres : j.result = none := by
      have := ih.1
      rw [hp] at this
      simpa using Option.not_isSome_iff_eq_none.mp (by simp [this])
    have herr : j.error = none := by
      have := ih.2.1
      rw [hp] at this
      simpa using Option.not_isSome_iff_eq_none.mp (by simp [this])
    cases hd : dispatch caps (setRunning j)
    · rw [execute_err caps now j _ hd]
      refine ⟨by simp [setRunning, hres], by simp, by simp, by simp, ?_⟩
      intro now2 hpend
      simp at hpend
    · rw [execute_ok caps now j _ hd]
      refine ⟨by simp, by simp [setRunning, herr], by simp, by simp, ?_⟩
      intro now2 hpend
      simp at hpend

/-- Witness for C3: a created-then-executed concrete job. -/
theorem claim_C3_witness :
    ((execute okCaps 7 (mkJob "j2" "parse_image" () 0)).result.isSome ↔
      (execute okCaps 7 (mkJob "j2" "parse_image" () 0)).status = JobStatus.done) ∧
    ¬((execute okCaps 7 (mkJob "j2" "parse_image" () 0)).status = JobStatus.done ∧
      (execute okCaps 7 (mkJob "j2" "parse_image" () 0)).status = JobStatus.failed) := by
  have h := claim_C3 okCaps (execute okCaps 7 (mkJob "j2" "parse_image" () 0))
    (Reachable.executed _ 7 (Reachable.created "j2" "parse_image" () 0) rfl)
  exact ⟨h.1, h.2.2.1⟩

/-- C4: executing a job whose task kind is not one of the five recognized
kinds fails immediately: the job ends FAILED with the error message
`"Unknown task: <task>"`, and its completion time is set (the single
execution is terminal — the queue has no retry path). -/
theorem claim_C4 {π α : Type} (caps : Caps π α) (now : Nat) (j : Job π α)
    (h : j.task ∉ knownTasks) :
    (execute caps now j).status = .failed ∧
    (execute caps now j).error = some ("Unknown task: " ++ j.task) ∧
    (execute caps now j).completed_at = some now := by
  simp only [knownTasks, List.mem_cons, List.not_mem_nil, or_false, not_or] at h
  obtain ⟨h1, h2, h3, h4, h5⟩ := h
  have hd : dispatch caps (setRunning j) =
      .error ("Unknown task: " ++ j.task) := by
    simp [dispatch, setRunning, h1, h2, h3, h4, h5]
  simp [execute, finishJob, hd]

/-- Witness for C4: the task kind `"bogus"` with a concrete payload. -/
theorem claim_C4_witness :
    (execute okCaps 3 (mkJob "j9" "bogus" () 0)).status = JobStatus.failed ∧
    (execute okCaps 3 (mkJob "j9" "bogus" () 0)).error =
      some "Unknown task: bogus" := by
  have h := claim_C4 okCaps 3 (mkJob "j9" "bogus" () 0) (by decide)
  exact ⟨h.1, h.2.1⟩

/-! ## Claims C5 - C10 (src/alchemy/utils/chunker.py) -/

/-- C5 as stated is false: after a flush the next window is seeded with the
carried overlap paragraphs and the overflowing paragraph is appended to
them, so an oversized paragraph's emitted chunk can contain preceding
overlap paragraphs as well.  With `chunk_size = chunk_overlap = 2` and two
paragraphs `"aaaa"` (estimate 1) and 40 `b`s (estimate 10), no emitted
chunk's text equals the oversized paragraph: its chunk is
`"aaaa\n\n" + "b"*40`. -/
theorem claim_C5_counterexample :
    2 < estimate_tokens bigPara ∧
    bigPara ∈ paragraphsOf cexText ∧
    ∀ c ∈ chunk 2 2 cexText, c.text ≠ bigPara := by decide

/-- C5 amended: a paragraph whose own estimate exceeds `chunk_size` is
never truncated or split mid-paragraph — it appears whole as one element of
some emitted window (and the join of that window is one of the emitted
sub-chunks) — but it is not necessarily alone in its window: overlap
paragraphs carried from the previous flush may be merged in front of it. -/
theorem claim_C5 (size cap : Nat) (text : List Char) (p : List Char)
    (hbig : size < estimate_tokens p) (hp : p ∈ paragraphsOf text) :
    ∃ w ∈ slidingWindowParas size cap text,
      p ∈ w ∧ joinSep nlnl w ∈ sliding_window size cap text := by
  obtain ⟨w, hw, hpw⟩ := slidingWindowParas_mem size cap text p hp
  refine ⟨w, hw, hpw, ?_⟩
  rw [sliding_window_eq]
  exact List.mem_map_of_mem (joinSep nlnl) hw

/-- Witness for C5 (amended) on the counterexample input. -/
theorem claim_C5_witness :
    ∃ w ∈ slidingWindowParas 2 2 cexText,
      bigPara ∈ w ∧ joinSep nlnl w ∈ sliding_window 2 2 cexText :=
  claim_C5 2 2 cexText bigPara (by decide) (by decide)

/-- C6: when the sliding-window loop flushes a window, the flushed text is
the join of the current paragraphs, the next window is seeded with the
overlap paragraphs followed by the overflowing paragraph, the overlap
paragraphs form a suffix of the just-flushed window (whole paragraphs in
their original order, collected walking backward from the end), and their
cumulative estimate never exceeds `chunk_overlap`. -/
theorem claim_C6 (size cap : Nat) (st : SWState) (para : List Char)
    (hover : size < st.current_tokens + estimate_tokens para)
    (hne : st.current_paras ≠ []) :
    (swStep size cap st para).windows =
      st.windows ++ [joinSep nlnl st.current_paras] ∧
    (swStep size cap st para).current_paras =
      (overlapOf cap st.current_paras).1 ++ [para] ∧
    (overlapOf cap st.current_paras).1 <:+ st.current_paras ∧
    ((overlapOf cap st.current_paras).1.map estimate_tokens).sum ≤ cap := by
  simp only [swStep]
  rw [if_pos ⟨hover, hne⟩]
  exact ⟨rfl, rfl, overlapOf_suffix cap st.current_paras,
    by rw [← overlapOf_sum]; exact overlapOf_le cap st.current_paras⟩

/-- Witness for C6 at a concrete loop state. -/
theorem claim_C6_witness :
    (swStep 2 1 ⟨[], ["aaaa".toList, "bbbb".toList], 2⟩ ("cccccccc".toList)).windows =
      [("aaaa\n\nbbbb".toList)] ∧
    (swStep 2 1 ⟨[], ["aaaa".toList, "bbbb".toList], 2⟩ ("cccccccc".toList)).current_paras =
      ["bbbb".toList, "cccccccc".toList] ∧
    (overlapOf 1 ["aaaa".toList, "bbbb".toList]).1 <:+
      ["aaaa".toList, "bbbb".toList] ∧
    ((overlapOf 1 ["aaaa".toList, "bbbb".toList]).1.map estimate_tokens).sum ≤ 1 := by
  have h := claim_C6 2 1 ⟨[], ["aaaa".toList, "bbbb".toList], 2⟩
    ("cccccccc".toList) (by decide) (by decide)
  refine ⟨?_, ?_, h.2.2.1, h.2.2.2⟩
  · rw [h.1]
    decide
  · rw [h.2.1]
    decide

/-- C7: a section produced by heading segmentation whose estimate
`max(1, len // 4)` is at most `chunk_size` (equality included: `<=` does
not split) contributes exactly one chunk, carrying that section's heading
label, its stripped text and its estimate; and the chunk list of one call
is precisely the in-order concatenation of the per-section contributions.
The guard `stripChars text ≠ []` restricts to inputs on which `chunk`
actually runs heading segmentation (otherwise it returns early). -/
theorem claim_C7 (size cap : Nat) (text : List Char)
    (title : Option (List Char)) (body : List Char)
    (h0 : stripChars text ≠ [])
    (hmem : (title, body) ∈ split_by_headings text)
    (hsmall : estimate_tokens body ≤ size) :
    pieces size cap (title, body) =
      [(stripChars body, title, some (estimate_tokens body))] ∧
    (chunk size cap text).map content =
      ((split_by_headings text).map (pieces size cap)).flatten := by
  constructor
  · simp [pieces, hsmall]
  · unfold chunk
    rw [if_neg h0]
    simpa using fold_content size cap (split_by_headings text) [] 0

/-- Witness for C7 with a section estimate exactly equal to `chunk_size`. -/
theorem claim_C7_witness :
    estimate_tokens ("hello".toList) = 1 ∧
    pieces 1 64 (some ("A".toList), "hello".toList) =
      [("hello".toList, some ("A".toList), some 1)] ∧
    (chunk 1 64 ("# A\nhello".toList)).map content =
      ((split_by_headings ("# A\nhello".toList)).map (pieces 1 64)).flatten := by
  have h := claim_C7 1 64 ("# A\nhello".toList) (some ("A".toList))
    ("hello".toList) (by decide) (by decide) (by decide)
  refine ⟨by decide, ?_, h.2⟩
  rw [h.1]
  decide

/-- C8: chunk indices are assigned sequentially across the entire call,
starting at 0 and never reset per section: the chunk stored at position `i`
has index `i`. -/
theorem claim_C8 (size cap : Nat) (text : List Char) (i : Nat)
    (c : DocumentChunk) (h : (chunk size cap text).get? i = some c) :
    c.index = i := by
  unfold chunk at h
  by_cases h0 : stripChars text = []
  · rw [if_pos h0] at h
    simp at h
  · rw [if_neg h0] at h
    have hal := fold_idx size cap (split_by_headings text) ([], 0)
      ⟨rfl, fun i2 c2 hc2 => by simp at hc2⟩
    exact hal.2 i c h

/-- Witness for C8 on a concrete input. -/
theorem claim_C8_witness :
    (chunk 512 64 ("hello".toList)).get? 0 =
      some ⟨0, "hello".toList, none, none, some 1⟩ ∧
    (⟨0, "hello".toList, none, none, some 1⟩ : DocumentChunk).index = 0 := by
  refine ⟨by decide, ?_⟩
  exact claim_C8 512 64 ("hello".toList) 0 _ (by decide)

/-- C9: `chunk` is total by construction (it is a total Lean function on
arbitrary character sequences, with no failure path), and on any input that
is empty or strips to whitespace only, the guard
`if not text or not text.strip()` returns the empty chunk sequence. -/
theorem claim_C9 (size cap : Nat) (text : List Char)
    (h : stripChars text = []) : chunk size cap text = [] := by
  unfold chunk
  rw [if_pos h]

/-- Witness for C9 on the empty input and an all-whitespace input. -/
theorem claim_C9_witness :
    stripChars ("  \n\t ".toList) = [] ∧
    chunk 512 64 ("  \n\t ".toList) = [] ∧
    chunk 512 64 ("".toList) = [] :=
  ⟨by decide, claim_C9 512 64 ("  \n\t ".toList) (by decide),
    claim_C9 512 64 ("".toList) (by decide)⟩

/-- C10: a heading whose body is empty after trimming contributes no
section (`"# A"` yields no sections and no chunks although it is neither
empty nor all-whitespace), an all-whitespace preamble is dropped
(`"  \n# A\nhi"` yields exactly the one section `("A", "hi")`), and no
emitted chunk ever has empty or all-whitespace text. -/
theorem claim_C10 :
    (stripChars ("# A".toList) ≠ [] ∧ split_by_headings ("# A".toList) = [] ∧
      chunk 512 64 ("# A".toList) = []) ∧
    split_by_headings ("  \n# A\nhi".toList) = [(some ("A".toList), "hi".toList)] ∧
    ∀ (size cap : Nat) (text : List Char) (c : DocumentChunk),
      c ∈ chunk size cap text → c.text ≠ [] ∧ ¬(∀ ch ∈ c.text, isWs ch) := by
  refine ⟨by decide, by decide, ?_⟩
  intro size cap text c hc
  have h0 : stripChars text ≠ [] := by
    intro hnil
    unfold chunk at hc
    rw [if_pos hnil] at hc
    exact absurd hc (List.not_mem_nil c)
  have heq : (chunk size cap text).map content =
      ((split_by_headings text).map (pieces size cap)).flatten := by
    unfold chunk
    rw [if_neg h0]
    simpa using fold_content size cap (split_by_headings text) [] 0
  have hcontent : content c ∈
      ((split_by_headings text).map (pieces size cap)).flatten := by
    rw [← heq]
    exact List.mem_map_of_mem content hc
  rcases List.mem_flatten.mp hcontent with ⟨l, hl, hcl⟩
  rcases List.mem_map.mp hl with ⟨sec, hsec, rfl⟩
  by_cases hsm : estimate_tokens sec.2 ≤ size
  · simp only [pieces, if_pos hsm] at hcl
    rcases List.mem_singleton.mp hcl with hceq
    have ht : c.text = stripChars sec.2 := congrArg Prod.fst hceq
    rcases split_by_headings_body text sec hsec with hb | ⟨hbne, hbstrip⟩
    · rw [hb] at ht
      exact ⟨by rw [ht]; exact h0, by rw [ht]; exact stripped_not_all_ws text h0⟩
    · have hne : stripChars sec.2 ≠ [] := by
        rw [hbstrip]
        exact hbne
      exact ⟨by rw [ht]; exact hne,
        by rw [ht]; exact stripped_not_all_ws sec.2 hne⟩
  · simp only [pieces, if_neg hsm] at hcl
    rcases List.mem_map.mp hcl with ⟨sub, hsub, hceq⟩
    have ht : c.text = stripChars sub := (congrArg Prod.fst hceq).symm
    rw [sliding_window_eq] at hsub
    rcases List.mem_map.mp hsub with ⟨w, hw, rfl⟩
    obtain ⟨hwne, hwmem⟩ := slidingWindowParas_good size cap sec.2 w hw
    obtain ⟨q0, hq0⟩ : ∃ q0, q0 ∈ w := by
      cases w with
      | nil => exact absurd rfl hwne
      | cons a t => exact ⟨a, by simp⟩
    obtain ⟨hq0ne, hq0strip⟩ := paragraphsOf_mem sec.2 q0 (hwmem q0 hq0)
    have hq0nall : ¬(∀ ch ∈ q0, isWs ch) := by
      have hx := stripped_not_all_ws q0 (by rw [hq0strip]; exact hq0ne)
      rwa [hq0strip] at hx
    push_neg at hq0nall
    obtain ⟨ch, hch, hchw⟩ := hq0nall
    have hchsub : ch ∈ joinSep nlnl w := joinSep_mem nlnl w q0 ch hq0 hch
    have hsubne : stripChars (joinSep nlnl w) ≠ [] := by
      intro hnil
      exact hchw ((stripChars_eq_nil_iff (joinSep nlnl w)).mp hnil ch hchsub)
    exact ⟨by rw [ht]; exact hsubne,
      by rw [ht]; exact stripped_not_all_ws (joinSep nlnl w) hsubne⟩

/-- Witness for C10's universal part on a concrete chunk. -/
theorem claim_C10_witness :
    (⟨0, "hello".toList, none, none, some 1⟩ : DocumentChunk).text ≠ [] ∧
    ¬(∀ ch ∈ (⟨0, "hello".toList, none, none, some 1⟩ : DocumentChunk).text,
        isWs ch) :=
  claim_C10.2.2 512 64 ("hello".toList)
    ⟨0, "hello".toList, none, none, some 1⟩ (by decide)

end Alchemy
